import Mathlib

/-!
Shallow embedding of the decoy-traffic subsystem of `internal/decoy/decoy.go`
from hashcloak/Meson-server.

Modelling choices, stated once:

* The AVL tree `surbETAs` (library `git.schwanenlied.me/yawning/avl.git`,
  ordered by the comparator `New` installs, which compares
  `a.([]*surbCtx)[0].eta`) is modelled as a list of nodes kept in ascending
  `key` order.  A node's `key` records the eta under which the node was
  inserted: mutating a node's `Value` never moves the node in an AVL tree,
  so the key is part of the node, not recomputed from the value.
* Node pointers (`*avl.Node`) are modelled as arena handles (`nid` : Nat);
  the Go map `surbStore` is an association list from id to entry.
* A node's `Value` field has Go type `interface{}`.  `NodeVal.group l`
  models it holding a `[]*surbCtx`; `NodeVal.nilCtxPtr` models it holding a
  typed nil `*surbCtx`, which is exactly what the statement
  `ctx.etaNode.Value = nCtxList[l-1]` in `loadAndDeleteSURBCtx` stores after
  `nCtxList[l-1] = nil` (the element, not a sliced list, is assigned).
* Go run-time panics (failed type assertions, index out of range, nil
  dereference, and the explicit `panic("BUG: ...")` calls) surface as
  `Except.error` values of type `GoPanic`.
* Machine integers: `id` values (uint64) are `Nat`; monotonic times and
  `time.Duration` values are `Int` (int64 overflow is never approached by
  the quantities involved, so no wrap-around is modelled).
-/

deriving instance DecidableEq for Except

namespace MesonDecoy

/-- Go run-time faults the embedded operations can raise. -/
inductive GoPanic where
  | typeAssertion : GoPanic
  | indexOutOfRange : GoPanic
  | nilDeref : GoPanic
  | missingFromEtaList : GoPanic
  | mismatchInEtaList : GoPanic
  | danglingNode : GoPanic
  | notSurbReply : GoPanic
deriving DecidableEq

/-- One outstanding SURB reply token (`surbCtx` in decoy.go).  The mutable
back-pointer field `etaNode` is kept in the owning store entry instead,
since it is only ever read through the store. -/
structure SurbCtx where
  id : Nat
  eta : Int
  sprpKey : List Nat
deriving DecidableEq

/-- Value held in an expiry-index node (`avl.Node.Value`, an `interface{}`):
either a `[]*surbCtx` group or a typed nil `*surbCtx`. -/
inductive NodeVal where
  | group : List SurbCtx → NodeVal
  | nilCtxPtr : NodeVal
deriving DecidableEq

/-- One expiry-index node.  `nid` is the arena handle standing for the node
pointer; `key` is the eta that positions the node in the tree. -/
structure TreeNode where
  nid : Nat
  key : Int
  val : NodeVal
deriving DecidableEq

/-- Store entry: the context together with its `etaNode` back-pointer. -/
structure StoreEntry where
  ctx : SurbCtx
  etaNode : Option Nat
deriving DecidableEq

/-- The state the Token Lifecycle Manager guards: the expiry index
`surbETAs` (ascending by `key`), the token store `surbStore`, and the next
fresh arena handle. -/
structure DecoyState where
  surbETAs : List TreeNode
  surbStore : List (Nat × StoreEntry)
  nextNid : Nat
deriving DecidableEq

/-- Go map read `d.surbStore[id]`. -/
def storeLookup : List (Nat × StoreEntry) → Nat → Option StoreEntry
  | [], _ => none
  | (k, v) :: rest, id => if k = id then some v else storeLookup rest id

/-- Go map write `d.surbStore[id] = e` (overwrites an existing key). -/
def storeInsert : List (Nat × StoreEntry) → Nat → StoreEntry →
    List (Nat × StoreEntry)
  | [], id, e => [(id, e)]
  | (k, v) :: rest, id, e =>
    if k = id then (k, e) :: rest else (k, v) :: storeInsert rest id e

/-- Go map delete `delete(d.surbStore, id)`. -/
def storeDelete (st : List (Nat × StoreEntry)) (id : Nat) :
    List (Nat × StoreEntry) :=
  st.filter (fun p => decide (p.1 ≠ id))

/-- Dereference an arena handle to its node, if still in the tree. -/
def findNode (t : List TreeNode) (nid : Nat) : Option TreeNode :=
  t.find? (fun n => n.nid == nid)

/-- Overwrite the `Value` field of the node a handle points to. -/
def setNodeVal (t : List TreeNode) (nid : Nat) (v : NodeVal) : List TreeNode :=
  t.map (fun n => if n.nid = nid then ⟨n.nid, n.key, v⟩ else n)

/-- Remove the node a handle points to (`surbETAs.Remove(node)`). -/
def removeNode (t : List TreeNode) (nid : Nat) : List TreeNode :=
  t.filter (fun n => decide (n.nid ≠ nid))

/-- Models `d.surbETAs.Insert(ctxList)` followed by the append-on-collision
fixup of `storeSURBCtx`: walk to the ordered position of `ctx.eta`; if a
node with that exact key exists, append `ctx` to its group (the source
detects this via the pointer test `nCtxList[0] != ctx`); otherwise create a
fresh node holding `[ctx]`.  Returns the new tree, the handle of the node
now holding `ctx`, and whether that node is newly created.  The comparator
and the fixup both type-assert `Value.([]*surbCtx)` and read element `[0]`,
so a node holding a nil pointer or an empty group panics. -/
def treeStore (ctx : SurbCtx) (fresh : Nat) :
    List TreeNode → Except GoPanic (List TreeNode × Nat × Bool)
  | [] => .ok ([⟨fresh, ctx.eta, NodeVal.group [ctx]⟩], fresh, true)
  | n :: rest =>
    match n.val with
    | .nilCtxPtr => .error .typeAssertion
    | .group [] => .error .indexOutOfRange
    | .group (c :: cs) =>
      if ctx.eta < n.key then
        .ok (⟨fresh, ctx.eta, NodeVal.group [ctx]⟩ :: n :: rest, fresh, true)
      else if ctx.eta = n.key then
        .ok (⟨n.nid, n.key, NodeVal.group ((c :: cs) ++ [ctx])⟩ :: rest,
             n.nid, false)
      else
        match treeStore ctx fresh rest with
        | .error e => .error e
        | .ok (t, i, b) => .ok (n :: t, i, b)

/-- Models `storeSURBCtx` (decoy.go lines 406-419): insert into the expiry
index (appending to an existing node on an eta collision), set the
back-pointer, and insert into the token store under `ctx.id`. -/
def storeSURBCtx (s : DecoyState) (ctx : SurbCtx) : Except GoPanic DecoyState :=
  match treeStore ctx s.nextNid s.surbETAs with
  | .error e => .error e
  | .ok (t, nid, isNew) =>
    .ok ⟨t, storeInsert s.surbStore ctx.id ⟨ctx, some nid⟩,
         if isNew then s.nextNid + 1 else s.nextNid⟩

/-- Models `loadAndDeleteSURBCtx` (decoy.go lines 421-453).  The branch for
a group of more than one context reproduces the source faithfully: after
shifting the list down and writing nil into its last slot, the source
assigns the element `nCtxList[l-1]` — a typed nil `*surbCtx`, not a sliced
list — into `ctx.etaNode.Value`, so the node value becomes `nilCtxPtr`. -/
def loadAndDeleteSURBCtx (s : DecoyState) (id : Nat) :
    Except GoPanic (Option SurbCtx × DecoyState) :=
  match storeLookup s.surbStore id with
  | none => .ok (none, s)
  | some e =>
    let store1 := storeDelete s.surbStore id
    match e.etaNode with
    | none => .error .nilDeref
    | some nid =>
      match findNode s.surbETAs nid with
      | none => .error .danglingNode
      | some n =>
        match n.val with
        | .nilCtxPtr => .error .typeAssertion
        | .group nCtxList =>
          match nCtxList with
          | [] => .error .indexOutOfRange
          | [c] =>
            if c = e.ctx then
              .ok (some e.ctx, ⟨removeNode s.surbETAs nid, store1, s.nextNid⟩)
            else .error .mismatchInEtaList
          | _ :: _ :: _ =>
            if e.ctx ∈ nCtxList then
              .ok (some e.ctx,
                   ⟨setNodeVal s.surbETAs nid NodeVal.nilCtxPtr, store1,
                    s.nextNid⟩)
            else .error .missingFromEtaList

/-- Models the iteration body of `sweepSURBCtxs` (decoy.go lines 467-482):
walk the index in ascending order; for each node whose group's first eta
plus slack is not in the future, delete every member from the store, log it
as lost (the returned id list models the per-context log lines), and remove
the node; stop at the first node still in the future. -/
def sweepLoop (now slack : Int) :
    List TreeNode → List (Nat × StoreEntry) →
    Except GoPanic (List Nat × List TreeNode × List (Nat × StoreEntry))
  | [], st => .ok ([], [], st)
  | n :: rest, st =>
    match n.val with
    | .nilCtxPtr => .error .typeAssertion
    | .group [] => .error .indexOutOfRange
    | .group (c :: cs) =>
      if c.eta + slack > now then .ok ([], n :: rest, st)
      else
        match sweepLoop now slack rest
            (List.foldl (fun acc x => storeDelete acc x.id) st (c :: cs)) with
        | .error e => .error e
        | .ok (ids, t, st2) =>
          .ok ((c :: cs).map (fun x => x.id) ++ ids, t, st2)

/-- Models `sweepSURBCtxs` (decoy.go lines 455-485); returns the ids of the
swept contexts (their log lines) and the new state. -/
def sweepSURBCtxs (s : DecoyState) (now slack : Int) :
    Except GoPanic (List Nat × DecoyState) :=
  if s.surbETAs.isEmpty then .ok ([], s)
  else
    match sweepLoop now slack s.surbETAs s.surbStore with
    | .error e => .error e
    | .ok (ids, t, st) => .ok (ids, ⟨t, st, s.nextNid⟩)

/-- Contexts held by a node value (none for a corrupted value). -/
def nodeCtxs (n : TreeNode) : List SurbCtx :=
  match n.val with
  | .group l => l
  | .nilCtxPtr => []

/-- All contexts reachable by iterating the index nodes' groups. -/
def allCtxs : List TreeNode → List SurbCtx
  | [] => []
  | n :: t => nodeCtxs n ++ allCtxs t

/-- Contexts reachable from the expiry index of a state. -/
def treeCtxs (s : DecoyState) : List SurbCtx :=
  allCtxs s.surbETAs

/-- Ids reachable from the expiry index of a state. -/
def treeIds (s : DecoyState) : List Nat :=
  (treeCtxs s).map (fun c => c.id)

/-- Ids present in the token store of a state. -/
def storeIds (s : DecoyState) : List Nat :=
  s.surbStore.map (fun p => p.1)

/-- A node is proper when its value is a nonempty group all of whose
members carry the node's key as their eta. -/
def properNode (n : TreeNode) : Bool :=
  match n.val with
  | .group [] => false
  | .group (c :: cs) => (c :: cs).all (fun x => x.eta == n.key)
  | .nilCtxPtr => false

/-- Well-formedness of a lifecycle state: proper nodes, strictly ascending
keys, no duplicated ids, and the store and the index reach the same ids. -/
def WF (s : DecoyState) : Prop :=
  (∀ n ∈ s.surbETAs, properNode n = true) ∧
  s.surbETAs.Pairwise (fun a b => a.key < b.key) ∧
  (treeIds s).Nodup ∧
  (storeIds s).Nodup ∧
  (∀ i ∈ storeIds s, i ∈ treeIds s) ∧
  (∀ i ∈ treeIds s, i ∈ storeIds s)

instance (s : DecoyState) : Decidable (WF s) := by
  unfold WF; infer_instance

/-- The sweep horizon test on a node, read off the node key. -/
def dueNode (now slack : Int) (n : TreeNode) : Bool :=
  decide (n.key + slack ≤ now)

/-- The sweep horizon test on a context. -/
def dueCtx (now slack : Int) (c : SurbCtx) : Bool :=
  decide (c.eta + slack ≤ now)

/-- Iterated store deletion. -/
def deleteIds (st : List (Nat × StoreEntry)) (ids : List Nat) :
    List (Nat × StoreEntry) :=
  List.foldl storeDelete st ids

/-- The empty lifecycle state. -/
def emptyDecoyState : DecoyState := ⟨[], [], 0⟩

/-- Oracle results for one iteration of the retry loop of `sendLoopPacket`
(decoy.go lines 290-340).  The external fallible primitives — forward
`path.New`, reverse `path.New`, `sphinx.NewSURB`, `sphinx.NewPacket`, and
`packet.New` inside `dispatchPacket` — are inputs here: `fwdOk` and `revOk`
say whether path selection succeeded, `thenMinusNow` is the transit
estimate `then.Sub(now)`, `monoNow` is `monotime.Now()` at context
creation, `surbRes` is the SURB bytes and SPRP key (`none` on failure, in
which case the Go values are nil slices), `pktOk` is the Sphinx packet
construction outcome, and `allocOk` the `packet.New` outcome. -/
structure Attempt where
  fwdOk : Bool
  revOk : Bool
  thenMinusNow : Int
  monoNow : Int
  surbRes : Option (List Nat × List Nat)
  pktOk : Bool
  allocOk : Bool
deriving DecidableEq

/-- The SURB bytes an attempt appends to the payload (nil slice on SURB
generation failure). -/
def surbBytes (a : Attempt) : List Nat :=
  (a.surbRes.getD ([], [])).1

/-- The SPRP key an attempt records (nil on SURB generation failure). -/
def surbKey (a : Attempt) : List Nat :=
  (a.surbRes.getD ([], [])).2

/-- The token context `sendLoopPacket` records: id from the random SURB-id
suffix, `eta = monotime.Now() + deltaT`, key from `sphinx.NewSURB`. -/
def mkLoopCtx (a : Attempt) (idSuffix : Nat) : SurbCtx :=
  ⟨idSuffix, a.monoNow + a.thenMinusNow, surbKey a⟩

/-- The loop-decoy payload (decoy.go lines 306-315): a 2-byte zeroed
header whose first byte is set to 1, then the SURB bytes, then
`constants.UserForwardPayloadLength` zero bytes (`ufpl` here). -/
def buildLoopPayload (surb : List Nat) (ufpl : Nat) : List Nat :=
  [1, 0] ++ surb ++ List.replicate ufpl 0

/-- Reply payload format as the specification describes it: exactly one
leading has-reply flag byte equal to 1, immediately followed by the SURB
bytes, the rest zero-padded to the fixed user-forward-payload length. -/
def specLoopPayloadClaim (surb : List Nat) (ufpl : Nat) : List Nat :=
  [1] ++ surb ++ List.replicate ufpl 0

/-- Externally observable actions of one `sendLoopPacket` call: recording a
token context in the lifecycle manager, and handing a packet to the
dispatch sink.  The dispatched packet is identified by the payload it
carries (Sphinx encryption is an external primitive). -/
inductive Ev where
  | stored : SurbCtx → Ev
  | dispatched : List Nat → Ev
deriving DecidableEq

/-- The bound `maxAttempts` of decoy.go line 51. -/
def maxAttempts : Nat := 3

/-- Models the retry loop of `sendLoopPacket`: attempt `i` with `fuel`
iterations left.  A forward or reverse path failure abandons the cycle at
once; a transit estimate at or above twice the test period retries; an
acceptable estimate builds the payload (note the source logs but does not
return on SURB failure), records the context before packet construction,
then constructs and dispatches.  Returns the final lifecycle state and the
trace of observable events, in order. -/
def runA (tp : Int) (ufpl idSuffix : Nat) (o : Nat → Attempt)
    (s : DecoyState) : Nat → Nat → Except GoPanic (DecoyState × List Ev)
  | _, 0 => .ok (s, [])
  | i, fuel + 1 =>
    let a := o i
    if a.fwdOk = false then .ok (s, [])
    else if a.revOk = false then .ok (s, [])
    else if a.thenMinusNow < tp * 2 then
      let payload := buildLoopPayload (surbBytes a) ufpl
      let ctx := mkLoopCtx a idSuffix
      match storeSURBCtx s ctx with
      | .error e => .error e
      | .ok s1 =>
        if a.pktOk = false then .ok (s1, [Ev.stored ctx])
        else if a.allocOk = false then .ok (s1, [Ev.stored ctx])
        else .ok (s1, [Ev.stored ctx, Ev.dispatched payload])
    else runA tp ufpl idSuffix o s (i + 1) fuel

/-- Models `sendLoopPacket` (decoy.go lines 286-343): up to `maxAttempts`
iterations starting at attempt 0.  `tp` stands for `epochtime.TestPeriod`,
`ufpl` for `constants.UserForwardPayloadLength`, and `idSuffix` for the
random 64-bit SURB-id suffix drawn by `makeSURBID`. -/
def sendLoopPacket (tp : Int) (ufpl idSuffix : Nat) (s : DecoyState)
    (o : Nat → Attempt) : Except GoPanic (DecoyState × List Ev) :=
  runA tp ufpl idSuffix o s 0 maxAttempts

/-- A PKI document cache entry as the decoy worker consumes it: its epoch
and the decoy scheduling parameters of its document. -/
structure CacheEntry where
  epoch : Nat
  lambdaMMaxDelay : Nat
deriving DecidableEq

/-- The scheduler state the document-arrival case of `worker` touches: the
cached document and the two counters it can bump.  `pkiDocs` is the
per-epoch labelled counter vector. -/
structure DocState where
  docCache : Option CacheEntry
  ignoredPKIDocs : Nat
  pkiDocs : List (Nat × Nat)
deriving DecidableEq

/-- Increment the labelled counter of an epoch. -/
def bumpEpoch : List (Nat × Nat) → Nat → List (Nat × Nat)
  | [], e => [(e, 1)]
  | (k, v) :: rest, e =>
    if k = e then (k, v + 1) :: rest else (k, v) :: bumpEpoch rest e

/-- Read the labelled counter of an epoch. -/
def epochCount : List (Nat × Nat) → Nat → Nat
  | [], _ => 0
  | (k, v) :: rest, e => if k = e then v else epochCount rest e

/-- Models the `newEnt := <-d.docCh` case of `worker` (decoy.go lines
178-203).  `sendDecoy` is `Config().Debug.SendDecoyTraffic`, `isProvider`
is `Config().Server.IsProvider`, and `pkiNow` is the epoch from
`PKI().Now()` (`none` when it errors). -/
def handleNewDocument (sendDecoy isProvider : Bool) (pkiNow : Option Nat)
    (ent : CacheEntry) (st : DocState) : DocState :=
  if sendDecoy = false then
    ⟨st.docCache, st.ignoredPKIDocs + 1, st.pkiDocs⟩
  else
    match pkiNow with
    | none => ⟨st.docCache, st.ignoredPKIDocs + 1, st.pkiDocs⟩
    | some now =>
      if ent.epoch ≠ now then
        ⟨st.docCache, st.ignoredPKIDocs + 1, st.pkiDocs⟩
      else if isProvider = true then
        ⟨st.docCache, st.ignoredPKIDocs + 1, st.pkiDocs⟩
      else
        ⟨some ent, st.ignoredPKIDocs, bumpEpoch st.pkiDocs now⟩

/-- Observable actions of one pass of the post-select scheduler body. -/
inductive SchedEv where
  | builder : SchedEv
  | sweep : SchedEv
deriving DecidableEq

/-- Result of one pass of the post-select scheduler body: the actions taken
in order, and the wake interval the timer is re-armed with (nanoseconds). -/
structure FireResult where
  events : List SchedEv
  wakeNs : Int
deriving DecidableEq

/-- The suspension interval `time.Duration(math.MaxInt64)`. -/
def maxDurationNs : Int := 2 ^ 63 - 1

/-- Models the body of `worker` after the select (decoy.go lines 208-233):
recompute the epoch; with no valid current document, suspend; otherwise
invoke the packet builder when the timer fired, draw the next wake interval
(`draw` is the exponential sample `rand.Exp(d.rng, doc.LambdaM)` in
milliseconds) clamped by the document's maximum delay, and sweep. -/
def timerFire (pkiNow : Option Nat) (docCache : Option CacheEntry)
    (draw : Nat) (timerFired : Bool) : FireResult :=
  match pkiNow with
  | none => ⟨[], maxDurationNs⟩
  | some now =>
    match docCache with
    | none => ⟨[], maxDurationNs⟩
    | some doc =>
      if doc.epoch ≠ now then ⟨[], maxDurationNs⟩
      else
        let wakeMsec :=
          if draw > doc.lambdaMMaxDelay then doc.lambdaMMaxDelay else draw
        ⟨(if timerFired then [SchedEv.builder] else []) ++ [SchedEv.sweep],
         (wakeMsec : Int) * 1000000⟩

/-- An inbound SURB reply packet as `OnPacket` reads it: the SURB-reply
marker, the recipient bytes, and the two 64-bit halves
`binary.BigEndian.Uint64` parses out of `pkt.SurbReply.ID`. -/
structure Pkt where
  isSurbReply : Bool
  recipient : List Nat
  surbIdBase : Nat
  surbIdSuffix : Nat
deriving DecidableEq

/-- Result of one `OnPacket` call: the lifecycle state afterwards, how many
times the dropped-packets counter was incremented, and whether a token
store lookup (`loadAndDeleteSURBCtx`) was performed. -/
structure ReplyResult where
  state : DecoyState
  dropped : Nat
  lookupPerformed : Bool
deriving DecidableEq

/-- Models `OnPacket` (decoy.go lines 118-159).  `recipient` and
`surbIDBase` are this instance's private recipient identity and token
base; `decryptOk` is the `sphinx.DecryptSURBPayload` oracle, fed the
retired context's key. -/
def onPacket (recipient : List Nat) (surbIDBase : Nat)
    (decryptOk : List Nat → Bool) (s : DecoyState) (pkt : Pkt) :
    Except GoPanic ReplyResult :=
  if pkt.isSurbReply = false then .error .notSurbReply
  else if pkt.recipient ≠ recipient then .ok ⟨s, 1, false⟩
  else if pkt.surbIdBase ≠ surbIDBase then .ok ⟨s, 1, false⟩
  else
    match loadAndDeleteSURBCtx s pkt.surbIdSuffix with
    | .error e => .error e
    | .ok (none, s1) => .ok ⟨s1, 1, true⟩
    | .ok (some ctx, s1) =>
      if decryptOk ctx.sprpKey then .ok ⟨s1, 0, true⟩
      else .ok ⟨s1, 1, true⟩

/-- Two contexts sharing the eta 10, with distinct ids. -/
def ctxA : SurbCtx := ⟨1, 10, []⟩

/-- Second context with the same eta as `ctxA`. -/
def ctxB : SurbCtx := ⟨2, 10, []⟩

/-- Store two contexts with an identical eta, then retire the first by id:
the operation sequence of properties P1/P2 of the specification. -/
def runStoreStoreTake : Except GoPanic (Option SurbCtx × DecoyState) :=
  match storeSURBCtx emptyDecoyState ctxA with
  | .error e => .error e
  | .ok s1 =>
    match storeSURBCtx s1 ctxB with
    | .error e => .error e
    | .ok s2 => loadAndDeleteSURBCtx s2 1

/-- The same sequence followed by retiring the second context by id. -/
def runStoreStoreTakeTake : Except GoPanic (Option SurbCtx × DecoyState) :=
  match runStoreStoreTake with
  | .error e => .error e
  | .ok (_, s3) => loadAndDeleteSURBCtx s3 2

/-- Oracle of a cycle whose SURB generation fails while everything else
succeeds: paths are found, the transit estimate 5 is inside the budget
(test period 10), but `sphinx.NewSURB` errors. -/
def oracleSurbFails : Nat → Attempt :=
  fun _ => ⟨true, true, 5, 100, none, true, true⟩

/-- Oracle of a fully successful cycle with SURB bytes `[7]` and key `[9]`. -/
def oracleAllOk : Nat → Attempt :=
  fun _ => ⟨true, true, 5, 100, some ([7], [9]), true, true⟩

/-- Oracle of a cycle where only `sphinx.NewPacket` fails. -/
def oraclePktFails : Nat → Attempt :=
  fun _ => ⟨true, true, 5, 100, some ([7], [9]), false, true⟩

/-- A one-token state: id 1, eta 10, stored in one index node. -/
def oneTokenState : DecoyState :=
  ⟨[⟨0, 10, NodeVal.group [⟨1, 10, []⟩]⟩], [(1, ⟨⟨1, 10, []⟩, some 0⟩)], 1⟩

/-- The state `runStoreStoreTake` produces: id 2 still mapped in the store,
but the index node's value overwritten with a typed nil pointer. -/
def brokenState : DecoyState :=
  ⟨[⟨0, 10, NodeVal.nilCtxPtr⟩], [(2, ⟨ctxB, some 0⟩)], 1⟩

/-- The lifecycle state a fully successful cycle with `oracleAllOk`
leaves behind. -/
def sAllOk : DecoyState :=
  ⟨[⟨0, 105, NodeVal.group [⟨7, 105, [9]⟩]⟩],
   [(7, ⟨⟨7, 105, [9]⟩, some 0⟩)], 1⟩

/-- An attempt the retry loop skips: both paths found but the transit
estimate exceeds the timing budget. -/
def retryA (tp : Int) (a : Attempt) : Prop :=
  a.fwdOk = true ∧ a.revOk = true ∧ ¬ (a.thenMinusNow < tp * 2)

/-- A context is reachable from a node list iff some node's group holds it. -/
theorem mem_allCtxs : ∀ (t : List TreeNode) (c : SurbCtx),
    c ∈ allCtxs t ↔ ∃ n, n ∈ t ∧ c ∈ nodeCtxs n := by
  intro t
  induction t with
  | nil => intro c; simp [allCtxs]
  | cons n rest ih =>
    intro c
    simp only [allCtxs, List.mem_append, List.mem_cons, ih]
    constructor
    · rintro (h | ⟨m, hm, hc⟩)
      · exact ⟨n, Or.inl rfl, h⟩
      · exact ⟨m, Or.inr hm, hc⟩
    · rintro ⟨m, (rfl | hm), hc⟩
      · exact Or.inl hc
      · exact Or.inr ⟨m, hm, hc⟩

/-- A proper node's value is a nonempty group. -/
theorem properNode_group {n : TreeNode} (hp : properNode n = true) :
    ∃ c cs, n.val = NodeVal.group (c :: cs) := by
  unfold properNode at hp
  cases hval : n.val with
  | nilCtxPtr => rw [hval] at hp; cases hp
  | group l =>
    cases l with
    | nil => rw [hval] at hp; cases hp
    | cons c cs => exact ⟨c, cs, rfl⟩

/-- Every member of a proper node's group carries the node's key. -/
theorem properNode_eta {n : TreeNode} {c : SurbCtx}
    (hp : properNode n = true) (hc : c ∈ nodeCtxs n) : c.eta = n.key := by
  obtain ⟨x, xs, hval⟩ := properNode_group hp
  unfold properNode at hp
  unfold nodeCtxs at hc
  rw [hval] at hp hc
  exact beq_iff_eq.mp (List.all_eq_true.mp hp c hc)

/-- Which ids survive a single store deletion. -/
theorem mem_map_storeDelete {st : List (Nat × StoreEntry)} {j i : Nat} :
    i ∈ (storeDelete st j).map Prod.fst ↔ i ∈ st.map Prod.fst ∧ i ≠ j := by
  simp only [storeDelete, List.mem_map, List.mem_filter, decide_eq_true_eq]
  constructor
  · rintro ⟨p, ⟨hp, hne⟩, rfl⟩
    exact ⟨⟨p, hp, rfl⟩, hne⟩
  · rintro ⟨⟨p, hp, rfl⟩, hne⟩
    exact ⟨p, ⟨hp, hne⟩, rfl⟩

/-- Which ids survive an iterated store deletion. -/
theorem mem_map_deleteIds {i : Nat} : ∀ (ids : List Nat)
    (st : List (Nat × StoreEntry)),
    i ∈ (deleteIds st ids).map Prod.fst ↔
      i ∈ st.map Prod.fst ∧ ¬ i ∈ ids := by
  intro ids
  induction ids with
  | nil => intro st; simp [deleteIds]
  | cons j rest ih =>
    intro st
    have : deleteIds st (j :: rest) = deleteIds (storeDelete st j) rest := rfl
    rw [this, ih, mem_map_storeDelete]
    simp only [List.mem_cons]
    constructor
    · rintro ⟨⟨h1, h2⟩, h3⟩
      exact ⟨h1, by rintro (rfl | h) <;> [exact h2 rfl; exact h3 h]⟩
    · rintro ⟨h1, h2⟩
      exact ⟨⟨h1, fun he => h2 (Or.inl he)⟩, fun hm => h2 (Or.inr hm)⟩

/-- Iterated deletion splits over appended id lists. -/
theorem deleteIds_append (st : List (Nat × StoreEntry)) (a b : List Nat) :
    deleteIds st (a ++ b) = deleteIds (deleteIds st a) b := by
  unfold deleteIds
  exact List.foldl_append _ _ _ _

/-- Characterization of the sweep loop on a tree of proper nodes: it takes
the longest due prefix, reports every context in it, and deletes those ids
from the store. -/
theorem sweepLoop_eq (now slack : Int) :
    ∀ (ns : List TreeNode) (st : List (Nat × StoreEntry)),
      (∀ n ∈ ns, properNode n = true) →
      sweepLoop now slack ns st =
        .ok ((allCtxs (ns.takeWhile (dueNode now slack))).map (fun c => c.id),
             ns.dropWhile (dueNode now slack),
             deleteIds st
               ((allCtxs (ns.takeWhile (dueNode now slack))).map
                 (fun c => c.id))) := by
  intro ns
  induction ns with
  | nil => intro st hp; simp [sweepLoop, allCtxs, deleteIds]
  | cons n rest ih =>
    intro st hp
    have hpn : properNode n = true := hp n (List.mem_cons_self _ _)
    have hrest : ∀ m ∈ rest, properNode m = true :=
      fun m hm => hp m (List.mem_cons_of_mem _ hm)
    obtain ⟨c, cs, hval⟩ := properNode_group hpn
    have hck : c.eta = n.key :=
      properNode_eta hpn (by rw [nodeCtxs, hval]; exact List.mem_cons_self _ _)
    by_cases hd : dueNode now slack n = true
    · have hkey : n.key + slack ≤ now := by
        unfold dueNode at hd
        exact of_decide_eq_true hd
      have hcond : ¬ (c.eta + slack > now) := by rw [hck]; omega
      have hfold : deleteIds st ((c :: cs).map (fun x => x.id)) =
          List.foldl (fun acc x => storeDelete acc x.id) st (c :: cs) := by
        unfold deleteIds
        exact List.foldl_map _ _ _ _
      unfold sweepLoop
      simp only [hval]
      rw [if_neg hcond, ih _ hrest]
      simp only [List.takeWhile_cons, List.dropWhile_cons, hd, if_true]
      simp only [allCtxs, nodeCtxs, hval, List.map_append, deleteIds_append,
        hfold]
    · have hd2 : dueNode now slack n = false := by
        simpa using hd
      have hkey : ¬ (n.key + slack ≤ now) := by
        unfold dueNode at hd2
        simpa using hd2
      have hcond : c.eta + slack > now := by rw [hck]; omega
      unfold sweepLoop
      simp only [hval]
      rw [if_pos hcond]
      simp [List.takeWhile_cons, List.dropWhile_cons, hd2, allCtxs, deleteIds]

/-- With ascending keys, nothing at or after a non-due node is due. -/
theorem notDue_tail {now slack : Int} {n : TreeNode} {rest : List TreeNode}
    (hrest : ∀ m ∈ rest, properNode m = true)
    (hlt : ∀ m ∈ rest, n.key < m.key)
    (hd : dueNode now slack n = false) :
    ∀ c ∈ allCtxs rest, dueCtx now slack c = false := by
  intro c hc
  obtain ⟨m, hm, hcm⟩ := (mem_allCtxs rest c).mp hc
  have he : c.eta = m.key := properNode_eta (hrest m hm) hcm
  have h1 : ¬ (n.key + slack ≤ now) := by
    unfold dueNode at hd
    simpa using hd
  have h2 := hlt m hm
  unfold dueCtx
  simp only [decide_eq_false_iff_not]
  omega

/-- With ascending keys, a non-due head makes every reachable context of
the whole list non-due. -/
theorem allCtxs_notDue {now slack : Int} {n : TreeNode} {rest : List TreeNode}
    (hpn : properNode n = true)
    (hrest : ∀ m ∈ rest, properNode m = true)
    (hlt : ∀ m ∈ rest, n.key < m.key)
    (hd : dueNode now slack n = false) :
    ∀ c ∈ allCtxs (n :: rest), dueCtx now slack c = false := by
  intro c hc
  rcases List.mem_append.mp (by simpa [allCtxs] using hc) with h1 | h2
  · have he := properNode_eta hpn h1
    unfold dueCtx
    unfold dueNode at hd
    rw [he]
    simpa using hd
  · exact notDue_tail hrest hlt hd c h2

/-- On a proper sorted tree, the due prefix reaches exactly the due
contexts. -/
theorem allCtxs_takeWhile (now slack : Int) :
    ∀ (ns : List TreeNode),
      (∀ n ∈ ns, properNode n = true) →
      ns.Pairwise (fun a b => a.key < b.key) →
      allCtxs (ns.takeWhile (dueNode now slack)) =
        (allCtxs ns).filter (dueCtx now slack) := by
  intro ns
  induction ns with
  | nil => intro _ _; simp [allCtxs]
  | cons n rest ih =>
    intro hp hs
    have hpn := hp n (List.mem_cons_self _ _)
    have hrest : ∀ m ∈ rest, properNode m = true :=
      fun m hm => hp m (List.mem_cons_of_mem _ hm)
    obtain ⟨hlt, hs2⟩ := List.pairwise_cons.mp hs
    by_cases hd : dueNode now slack n = true
    · have hall : ∀ c ∈ nodeCtxs n, dueCtx now slack c = true := by
        intro c hc
        have he := properNode_eta hpn hc
        unfold dueCtx
        unfold dueNode at hd
        rw [he]
        exact hd
      simp only [List.takeWhile_cons, hd, if_true, allCtxs, List.filter_append]
      rw [ih hrest hs2, List.filter_eq_self.mpr hall]
    · have hd2 : dueNode now slack n = false := by simpa using hd
      have hnone := allCtxs_notDue hpn hrest hlt hd2
      simp only [List.takeWhile_cons, hd2, Bool.false_eq_true, if_false]
      have h0 : (allCtxs (n :: rest)).filter (dueCtx now slack) = [] := by
        rw [List.filter_eq_nil_iff]
        intro c hc
        simp [hnone c hc]
      rw [h0]
      rfl

/-- On a proper sorted tree, the surviving suffix reaches exactly the
non-due contexts. -/
theorem allCtxs_dropWhile (now slack : Int) :
    ∀ (ns : List TreeNode),
      (∀ n ∈ ns, properNode n = true) →
      ns.Pairwise (fun a b => a.key < b.key) →
      allCtxs (ns.dropWhile (dueNode now slack)) =
        (allCtxs ns).filter (fun c => ! dueCtx now slack c) := by
  intro ns
  induction ns with
  | nil => intro _ _; simp [allCtxs]
  | cons n rest ih =>
    intro hp hs
    have hpn := hp n (List.mem_cons_self _ _)
    have hrest : ∀ m ∈ rest, properNode m = true :=
      fun m hm => hp m (List.mem_cons_of_mem _ hm)
    obtain ⟨hlt, hs2⟩ := List.pairwise_cons.mp hs
    by_cases hd : dueNode now slack n = true
    · have hall : ∀ c ∈ nodeCtxs n, dueCtx now slack c = true := by
        intro c hc
        have he := properNode_eta hpn hc
        unfold dueCtx
        unfold dueNode at hd
        rw [he]
        exact hd
      simp only [List.dropWhile_cons, hd, if_true, allCtxs, List.filter_append]
      rw [ih hrest hs2]
      have h0 : (nodeCtxs n).filter (fun c => ! dueCtx now slack c) = [] := by
        rw [List.filter_eq_nil_iff]
        intro c hc
        simp [hall c hc]
      rw [h0]
      rfl
    · have hd2 : dueNode now slack n = false := by simpa using hd
      have hnone := allCtxs_notDue hpn hrest hlt hd2
      simp only [List.dropWhile_cons, hd2, Bool.false_eq_true, if_false]
      symm
      rw [List.filter_eq_self]
      intro c hc
      simp [hnone c hc]

/-- Full characterization of `sweepSURBCtxs` on a proper sorted state. -/
theorem sweep_spec (s : DecoyState) (now slack : Int)
    (hp : ∀ n ∈ s.surbETAs, properNode n = true)
    (hs : s.surbETAs.Pairwise (fun a b => a.key < b.key)) :
    sweepSURBCtxs s now slack =
      .ok (((treeCtxs s).filter (dueCtx now slack)).map (fun c => c.id),
           ⟨s.surbETAs.dropWhile (dueNode now slack),
            deleteIds s.surbStore
              (((treeCtxs s).filter (dueCtx now slack)).map (fun c => c.id)),
            s.nextNid⟩) := by
  obtain ⟨tr, st, nid⟩ := s
  cases tr with
  | nil => rfl
  | cons a l =>
    unfold sweepSURBCtxs treeCtxs
    simp only [List.isEmpty_cons, Bool.false_eq_true, if_false]
    rw [sweepLoop_eq now slack (a :: l) st hp]
    rw [show allCtxs ((⟨a :: l, st, nid⟩ : DecoyState).surbETAs) =
          allCtxs (a :: l) from rfl]
    rw [allCtxs_takeWhile now slack (a :: l) hp hs]

/-- Bumping an epoch's counter increments exactly that label. -/
theorem epochCount_bumpEpoch_same : ∀ (l : List (Nat × Nat)) (e : Nat),
    epochCount (bumpEpoch l e) e = epochCount l e + 1 := by
  intro l e
  induction l with
  | nil => simp [bumpEpoch, epochCount]
  | cons p rest ih =>
    obtain ⟨k, v⟩ := p
    by_cases h : k = e
    · subst h
      simp [bumpEpoch, epochCount]
    · simp only [bumpEpoch, if_neg h, epochCount, ih]

/-- Bumping an epoch's counter leaves every other label unchanged. -/
theorem epochCount_bumpEpoch_other : ∀ (l : List (Nat × Nat)) (e e2 : Nat),
    e2 ≠ e → epochCount (bumpEpoch l e) e2 = epochCount l e2 := by
  intro l e e2 hne
  induction l with
  | nil => simp [bumpEpoch, epochCount, Ne.symm hne]
  | cons p rest ih =>
    obtain ⟨k, v⟩ := p
    by_cases h : k = e
    · subst h
      simp [bumpEpoch, epochCount, Ne.symm hne]
    · simp only [bumpEpoch, if_neg h, epochCount, ih]

/-- Claim C6: a delivered snapshot is rejected — the ignored counter
incremented, the cache and the per-epoch counters untouched — exactly when
decoy traffic is disabled, the PKI time source fails, the snapshot's epoch
is not the current epoch, or the node is a provider; otherwise it is cached
and its epoch's accepted counter gains exactly one. -/
theorem claim_C6_snapshot_accept_reject (sendDecoy isProvider : Bool)
    (pkiNow : Option Nat) (ent : CacheEntry) (st : DocState) :
    ((sendDecoy = false ∨ pkiNow = none ∨ pkiNow ≠ some ent.epoch ∨
        isProvider = true) →
      handleNewDocument sendDecoy isProvider pkiNow ent st =
        ⟨st.docCache, st.ignoredPKIDocs + 1, st.pkiDocs⟩) ∧
    (sendDecoy = true → isProvider = false → pkiNow = some ent.epoch →
      handleNewDocument sendDecoy isProvider pkiNow ent st =
        ⟨some ent, st.ignoredPKIDocs, bumpEpoch st.pkiDocs ent.epoch⟩ ∧
      epochCount (bumpEpoch st.pkiDocs ent.epoch) ent.epoch =
        epochCount st.pkiDocs ent.epoch + 1 ∧
      ∀ e2, e2 ≠ ent.epoch →
        epochCount (bumpEpoch st.pkiDocs ent.epoch) e2 =
          epochCount st.pkiDocs e2) := by
  constructor
  · intro hreject
    by_cases hsd : sendDecoy = false
    · unfold handleNewDocument
      rw [if_pos hsd]
    · cases pkiNow with
      | none =>
        unfold handleNewDocument
        rw [if_neg hsd]
      | some now =>
        rcases hreject with h | h | h | h
        · exact absurd h hsd
        · cases h
        · have hne : ent.epoch ≠ now := fun he => h (by rw [he])
          simp only [handleNewDocument, if_neg hsd, if_pos hne]
        · by_cases hne : ent.epoch ≠ now
          · simp only [handleNewDocument, if_neg hsd, if_pos hne]
          · simp only [handleNewDocument, if_neg hsd, if_neg hne, if_pos h]
  · intro hsd hip hep
    have heq : handleNewDocument sendDecoy isProvider pkiNow ent st =
        ⟨some ent, st.ignoredPKIDocs, bumpEpoch st.pkiDocs ent.epoch⟩ := by
      unfold handleNewDocument
      rw [if_neg (by simp [hsd])]
      simp only [hep]
      rw [if_neg (fun hh => hh rfl), if_neg (by simp [hip])]
    exact ⟨heq, epochCount_bumpEpoch_same st.pkiDocs ent.epoch,
           fun e2 h => epochCount_bumpEpoch_other st.pkiDocs ent.epoch e2 h⟩

/-- Claim C6 witness: epoch 5 while current epoch is 5, enabled,
non-provider, is cached with its counter bumped; epoch 5 while current
epoch is 6 is ignored. -/
theorem claim_C6_snapshot_accept_reject_witness :
    handleNewDocument true false (some 5) ⟨5, 30⟩ ⟨none, 0, []⟩ =
      ⟨some ⟨5, 30⟩, 0, [(5, 1)]⟩ ∧
    handleNewDocument true false (some 6) ⟨5, 30⟩ ⟨none, 0, []⟩ =
      ⟨none, 1, []⟩ := by
  constructor
  · exact ((claim_C6_snapshot_accept_reject true false (some 5) ⟨5, 30⟩
      ⟨none, 0, []⟩).2 rfl rfl rfl).1
  · exact (claim_C6_snapshot_accept_reject true false (some 6) ⟨5, 30⟩
      ⟨none, 0, []⟩).1 (Or.inr (Or.inr (Or.inl (by decide))))

/-- Claim C7: on a timer fire, when the PKI time source fails or no cached
snapshot matches the current epoch, the packet builder is not invoked and
the wake interval becomes the maximum representable duration; otherwise
the builder is invoked exactly once, the wake interval is the exponential
draw clamped above by the snapshot's maximum delay (in milliseconds), and
a sweep follows. -/
theorem claim_C7_timer_fire (pkiNow : Option Nat)
    (docCache : Option CacheEntry) (draw : Nat) :
    ((pkiNow = none ∨ docCache = none ∨
        (∀ doc, docCache = some doc → pkiNow ≠ some doc.epoch)) →
      timerFire pkiNow docCache draw true = ⟨[], maxDurationNs⟩) ∧
    (∀ doc, docCache = some doc → pkiNow = some doc.epoch →
      timerFire pkiNow docCache draw true =
        ⟨[SchedEv.builder, SchedEv.sweep],
         ((min draw doc.lambdaMMaxDelay : Nat) : Int) * 1000000⟩ ∧
      (timerFire pkiNow docCache draw true).events.count SchedEv.builder
        = 1) := by
  constructor
  · intro hsuspend
    cases pkiNow with
    | none => rfl
    | some now =>
      cases docCache with
      | none => rfl
      | some doc =>
        rcases hsuspend with h | h | h
        · cases h
        · cases h
        · have hne : doc.epoch ≠ now := fun he => h doc rfl (by rw [he])
          simp only [timerFire, if_pos hne]
  · intro doc hdc hpn
    subst hdc
    have hmin : (if draw > doc.lambdaMMaxDelay then doc.lambdaMMaxDelay
        else draw) = min draw doc.lambdaMMaxDelay := by
      by_cases h : draw > doc.lambdaMMaxDelay
      · rw [if_pos h]
        exact (Nat.min_eq_right (Nat.le_of_lt h)).symm
      · rw [if_neg h]
        exact (Nat.min_eq_left (Nat.le_of_not_lt h)).symm
    have heq : timerFire pkiNow (some doc) draw true =
        ⟨[SchedEv.builder, SchedEv.sweep],
         ((min draw doc.lambdaMMaxDelay : Nat) : Int) * 1000000⟩ := by
      unfold timerFire
      simp only [hpn]
      rw [if_neg (fun hh => hh rfl), hmin]
      rfl
    refine ⟨heq, ?_⟩
    rw [heq]
    rfl

/-- Claim C7 witness: with a matching epoch the builder runs once and the
draw 7 ms (below the 10 ms cap) becomes the wake interval; with a stale
cache the loop suspends. -/
theorem claim_C7_timer_fire_witness :
    timerFire (some 5) (some ⟨5, 10⟩) 7 true =
      ⟨[SchedEv.builder, SchedEv.sweep], 7000000⟩ ∧
    timerFire (some 6) (some ⟨5, 10⟩) 7 true = ⟨[], maxDurationNs⟩ := by
  constructor
  · exact ((claim_C7_timer_fire (some 5) (some ⟨5, 10⟩) 7).2
      ⟨5, 10⟩ rfl rfl).1
  · exact (claim_C7_timer_fire (some 6) (some ⟨5, 10⟩) 7).1
      (Or.inr (Or.inr (fun doc hd => by cases hd; decide)))

/-- Claim C8: an inbound SURB reply whose token-id base differs from this
instance's base is dropped — the dropped counter gains one — with no token
store lookup performed and the lifecycle state unchanged. -/
theorem claim_C8_foreign_base_dropped (recipient : List Nat)
    (surbIDBase : Nat) (decryptOk : List Nat → Bool) (s : DecoyState)
    (pkt : Pkt) (h1 : pkt.isSurbReply = true)
    (h2 : pkt.surbIdBase ≠ surbIDBase) :
    onPacket recipient surbIDBase decryptOk s pkt = .ok ⟨s, 1, false⟩ := by
  unfold onPacket
  rw [if_neg (by simp [h1])]
  by_cases hr : pkt.recipient ≠ recipient
  · rw [if_pos hr]
  · rw [if_neg hr, if_pos h2]

/-- Claim C8 witness: a packet with base 41 against instance base 42 is
dropped without a lookup even though its suffix id 1 is present in the
store. -/
theorem claim_C8_foreign_base_dropped_witness :
    onPacket [3] 42 (fun _ => true) oneTokenState ⟨true, [3], 41, 1⟩ =
      .ok ⟨oneTokenState, 1, false⟩ :=
  claim_C8_foreign_base_dropped [3] 42 (fun _ => true) oneTokenState
    ⟨true, [3], 41, 1⟩ (by decide) (by decide)

/-- Claim C1: after `store ctxA; store ctxB` (identical eta) and
`takeById 1`, the token store still holds id 2 while no context is
reachable by iterating the expiry-index groups — the store/index bijection
the claim asserts is violated.  The faulty write is
`ctx.etaNode.Value = nCtxList[l-1]` in `loadAndDeleteSURBCtx` (decoy.go
line 439), which stores the just-nilled element instead of the sliced
list `nCtxList[:l-1]`, contradicting the comment above it. -/
theorem claim_C1_bijection_broken :
    runStoreStoreTake = .ok (some ctxA, brokenState) ∧
    2 ∈ storeIds brokenState ∧ ¬ 2 ∈ treeIds brokenState ∧
    treeIds brokenState = [] := by decide

/-- Claim C2: two contexts stored with an identical eta are not both
retrievable by id: retiring the first succeeds, but retiring the second
panics on the `Value.([]*surbCtx)` type assertion, because the first
`takeById` overwrote the shared node's value with a nil `*surbCtx`
(decoy.go line 439). -/
theorem claim_C2_second_take_panics :
    (runStoreStoreTake.map Prod.fst) = .ok (some ctxA) ∧
    runStoreStoreTakeTake = .error GoPanic.typeAssertion := by decide

/-- Claim C3: a cycle in which `sphinx.NewSURB` fails (all other
primitives succeeding) still records a token context — with a nil SPRP
key — and still dispatches a packet whose payload carries no SURB bytes:
the error branch at decoy.go lines 311-313 logs the failure but is missing
a `return`, so the cycle is not abandoned. -/
theorem claim_C3_surb_failure_still_stores_and_dispatches :
    ((sendLoopPacket 10 3 7 emptyDecoyState oracleSurbFails).map Prod.snd) =
      .ok [Ev.stored ⟨7, 105, []⟩, Ev.dispatched [1, 0, 0, 0, 0]] := by
  decide

/-- Claim C4: on every well-formed lifecycle state, `sweep(now, slack)`
succeeds, reports exactly the ids of the contexts with
`eta + slack ≤ now` (in index order), keeps exactly the contexts with
`eta + slack > now`, removes exactly the reported ids from the token
store, and a second sweep at a non-decreasing `now` reports none of the
ids the first sweep reported. -/
theorem claim_C4_sweep_monotonicity (s : DecoyState) (now slack : Int)
    (hwf : WF s) :
    ∃ ids s2,
      sweepSURBCtxs s now slack = .ok (ids, s2) ∧
      ids = ((treeCtxs s).filter (dueCtx now slack)).map (fun c => c.id) ∧
      treeCtxs s2 = (treeCtxs s).filter (fun c => ! dueCtx now slack c) ∧
      (∀ c ∈ treeCtxs s, c.eta + slack ≤ now → c.id ∈ ids) ∧
      (∀ c ∈ treeCtxs s2, now < c.eta + slack) ∧
      (∀ i, i ∈ storeIds s2 ↔ (i ∈ storeIds s ∧ ¬ i ∈ ids)) ∧
      (∀ now2, now ≤ now2 →
        ∃ ids2 s3, sweepSURBCtxs s2 now2 slack = .ok (ids2, s3) ∧
          ∀ i ∈ ids, ¬ i ∈ ids2) := by
  obtain ⟨hp, hs, hnodup, _, _, _⟩ := hwf
  refine ⟨_, _, sweep_spec s now slack hp hs, rfl, ?_, ?_, ?_, ?_, ?_⟩
  · show allCtxs (s.surbETAs.dropWhile (dueNode now slack)) = _
    exact allCtxs_dropWhile now slack s.surbETAs hp hs
  · intro c hc hdue
    refine List.mem_map.mpr ⟨c, List.mem_filter.mpr ⟨hc, ?_⟩, rfl⟩
    unfold dueCtx
    exact decide_eq_true hdue
  · intro c hc
    have h2 : c ∈ (treeCtxs s).filter (fun c => ! dueCtx now slack c) := by
      have he := allCtxs_dropWhile now slack s.surbETAs hp hs
      exact he ▸ hc
    have h3 := (List.mem_filter.mp h2).2
    have h4 : dueCtx now slack c = false := by
      cases hval : dueCtx now slack c
      · rfl
      · rw [hval] at h3; cases h3
    unfold dueCtx at h4
    have := of_decide_eq_false h4
    omega
  · intro i
    show i ∈ (deleteIds s.surbStore _).map Prod.fst ↔ _
    rw [mem_map_deleteIds]
    exact Iff.rfl
  · intro now2 _
    have hp2 : ∀ n ∈ s.surbETAs.dropWhile (dueNode now slack),
        properNode n = true :=
      fun n hn => hp n ((s.surbETAs.dropWhile_sublist _).subset hn)
    have hs2 : (s.surbETAs.dropWhile (dueNode now slack)).Pairwise
        (fun a b => a.key < b.key) :=
      hs.sublist (s.surbETAs.dropWhile_sublist _)
    refine ⟨_, _, sweep_spec _ now2 slack hp2 hs2, ?_⟩
    intro i hi hi2
    obtain ⟨c1, hc1, hid1⟩ := List.mem_map.mp hi
    obtain ⟨c2, hc2, hid2⟩ := List.mem_map.mp hi2
    have hc1m := List.mem_filter.mp hc1
    have hc2m := List.mem_filter.mp hc2
    have hc2t : c2 ∈ allCtxs (s.surbETAs.dropWhile (dueNode now slack)) :=
      hc2m.1
    rw [allCtxs_dropWhile now slack s.surbETAs hp hs] at hc2t
    have hc2f := List.mem_filter.mp hc2t
    have hceq : c1 = c2 := by
      refine List.inj_on_of_nodup_map hnodup hc1m.1 hc2f.1 ?_
      rw [hid1, hid2]
    have hdue1 : dueCtx now slack c1 = true := hc1m.2
    have hdue2 : dueCtx now slack c2 = false := by
      have := hc2f.2
      cases hval : dueCtx now slack c2
      · rfl
      · rw [hval] at this; cases this
    rw [hceq, hdue2] at hdue1
    cases hdue1

/-- Claim C4 witness: a token with eta 10 survives `sweep(9, 0)` and is
reported and removed by `sweep(10, 0)`. -/
theorem claim_C4_sweep_monotonicity_witness :
    WF oneTokenState ∧
    (∃ ids s2, sweepSURBCtxs oneTokenState 9 0 = .ok (ids, s2) ∧
      ids = [] ∧ 1 ∈ storeIds s2) ∧
    (∃ ids s2, sweepSURBCtxs oneTokenState 10 0 = .ok (ids, s2) ∧
      ids = [1] ∧ ¬ 1 ∈ storeIds s2) := by
  refine ⟨by decide, ?_, ?_⟩
  · obtain ⟨ids, s2, h1, h2, _, _, _, h6, _⟩ :=
      claim_C4_sweep_monotonicity oneTokenState 9 0 (by decide)
    subst h2
    refine ⟨_, s2, h1, by decide, ?_⟩
    exact (h6 1).mpr (by decide)
  · obtain ⟨ids, s2, h1, h2, _, _, _, h6, _⟩ :=
      claim_C4_sweep_monotonicity oneTokenState 10 0 (by decide)
    subst h2
    refine ⟨_, s2, h1, by decide, ?_⟩
    intro hmem
    have := ((h6 1).mp hmem).2
    exact this (by decide)

/-- Which ids a store write makes visible. -/
theorem mem_map_storeInsert {st : List (Nat × StoreEntry)} {id i : Nat}
    {e : StoreEntry} :
    i ∈ (storeInsert st id e).map Prod.fst ↔
      i = id ∨ i ∈ st.map Prod.fst := by
  induction st with
  | nil => simp [storeInsert]
  | cons p rest ih =>
    obtain ⟨k, v⟩ := p
    by_cases h : k = id
    · simp only [storeInsert]
      rw [if_pos h]
      subst h
      simp only [List.map_cons, List.mem_cons]
      tauto
    · simp only [storeInsert]
      rw [if_neg h]
      simp only [List.map_cons, List.mem_cons, ih]
      tauto

/-- Writing a fresh key appends the binding. -/
theorem storeInsert_fresh {st : List (Nat × StoreEntry)} {id : Nat}
    (e : StoreEntry) (h : ¬ id ∈ st.map Prod.fst) :
    storeInsert st id e = st ++ [(id, e)] := by
  induction st with
  | nil => rfl
  | cons p rest ih =>
    obtain ⟨k, v⟩ := p
    have hne : ¬ k = id := by
      intro he
      exact h (by simp [he])
    have h2 : ¬ id ∈ rest.map Prod.fst := by
      intro hm
      exact h (by simp [hm])
    unfold storeInsert
    rw [if_neg hne, ih h2]
    rfl

/-- A successful `storeSURBCtx` makes the context's id visible in the
token store. -/
theorem storeSURBCtx_mem {s : DecoyState} {ctx : SurbCtx} {s2 : DecoyState}
    (h : storeSURBCtx s ctx = .ok s2) : ctx.id ∈ storeIds s2 := by
  unfold storeSURBCtx at h
  cases ht : treeStore ctx s.nextNid s.surbETAs with
  | error e => rw [ht] at h; cases h
  | ok trip =>
    obtain ⟨t, nid, isNew⟩ := trip
    rw [ht] at h
    cases h
    exact mem_map_storeInsert.mpr (Or.inl rfl)

/-- Characterization of `treeStore` on a proper sorted tree: it succeeds,
keeps the tree proper and sorted, adds exactly `ctx` to the reachable
contexts, and every node is either an `ctx.eta` node or an original one. -/
theorem treeStore_spec (ctx : SurbCtx) (fresh : Nat) :
    ∀ ns, (∀ n ∈ ns, properNode n = true) →
      ns.Pairwise (fun a b => a.key < b.key) →
      ∃ t nid isNew,
        treeStore ctx fresh ns = .ok (t, nid, isNew) ∧
        (∀ n ∈ t, properNode n = true) ∧
        t.Pairwise (fun a b => a.key < b.key) ∧
        (allCtxs t).Perm (ctx :: allCtxs ns) ∧
        (∀ m ∈ t, m.key = ctx.eta ∨ m ∈ ns) := by
  intro ns
  induction ns with
  | nil =>
    intro _ _
    refine ⟨[⟨fresh, ctx.eta, NodeVal.group [ctx]⟩], fresh, true, rfl,
            ?_, ?_, ?_, ?_⟩
    · intro m hm
      rcases List.mem_singleton.mp hm with rfl
      simp [properNode]
    · exact List.pairwise_singleton _ _
    · simp [allCtxs, nodeCtxs]
    · intro m hm
      rcases List.mem_singleton.mp hm with rfl
      exact Or.inl rfl
  | cons n rest ih =>
    intro hp hs
    have hpn := hp n (List.mem_cons_self _ _)
    have hrest : ∀ m ∈ rest, properNode m = true :=
      fun m hm => hp m (List.mem_cons_of_mem _ hm)
    obtain ⟨hlt, hs2⟩ := List.pairwise_cons.mp hs
    obtain ⟨c, cs, hval⟩ := properNode_group hpn
    by_cases h1 : ctx.eta < n.key
    · refine ⟨⟨fresh, ctx.eta, NodeVal.group [ctx]⟩ :: n :: rest, fresh, true,
              ?_, ?_, ?_, ?_, ?_⟩
      · unfold treeStore
        simp only [hval]
        rw [if_pos h1]
      · intro m hm
        rcases List.mem_cons.mp hm with rfl | hm2
        · simp [properNode]
        · exact hp m hm2
      · refine List.pairwise_cons.mpr ⟨?_, hs⟩
        intro b hb
        rcases List.mem_cons.mp hb with rfl | hb2
        · exact h1
        · exact lt_trans h1 (hlt b hb2)
      · exact List.Perm.refl _
      · intro m hm
        rcases List.mem_cons.mp hm with rfl | hm2
        · exact Or.inl rfl
        · exact Or.inr hm2
    · by_cases h2 : ctx.eta = n.key
      · refine ⟨⟨n.nid, n.key, NodeVal.group ((c :: cs) ++ [ctx])⟩ :: rest,
                n.nid, false, ?_, ?_, ?_, ?_, ?_⟩
        · unfold treeStore
          simp only [hval]
          rw [if_neg h1, if_pos h2]
        · intro m hm
          rcases List.mem_cons.mp hm with rfl | hm2
          · have hall : ∀ x ∈ (c :: cs) ++ [ctx], x.eta = n.key := by
              intro x hx
              rcases List.mem_append.mp hx with hx1 | hx2
              · exact properNode_eta hpn (by rw [nodeCtxs, hval]; exact hx1)
              · rcases List.mem_singleton.mp hx2 with rfl
                exact h2
            show ((c :: (cs ++ [ctx])).all fun x => x.eta == n.key) = true
            rw [List.all_eq_true]
            intro x hx
            exact beq_iff_eq.mpr (hall x hx)
          · exact hrest m hm2
        · refine List.pairwise_cons.mpr ⟨?_, hs2⟩
          intro b hb
          exact hlt b hb
        · show ((c :: cs) ++ [ctx] ++ allCtxs rest).Perm
            (ctx :: allCtxs (n :: rest))
          have hshape : allCtxs (n :: rest) = (c :: cs) ++ allCtxs rest := by
            simp [allCtxs, nodeCtxs, hval]
          rw [hshape, List.append_assoc]
          exact List.perm_middle
        · intro m hm
          rcases List.mem_cons.mp hm with rfl | hm2
          · exact Or.inl h2.symm
          · exact Or.inr (List.mem_cons_of_mem _ hm2)
      · have h3 : n.key < ctx.eta := by omega
        obtain ⟨t, nid, isNew, heq, hprop, hpair, hperm, hmem⟩ := ih hrest hs2
        refine ⟨n :: t, nid, isNew, ?_, ?_, ?_, ?_, ?_⟩
        · unfold treeStore
          simp only [hval]
          rw [if_neg h1, if_neg h2, heq]
        · intro m hm
          rcases List.mem_cons.mp hm with rfl | hm2
          · exact hpn
          · exact hprop m hm2
        · refine List.pairwise_cons.mpr ⟨?_, hpair⟩
          intro b hb
          rcases hmem b hb with hbk | hb2
          · rw [hbk]; exact h3
          · exact hlt b hb2
        · show (nodeCtxs n ++ allCtxs t).Perm (ctx :: allCtxs (n :: rest))
          have : (nodeCtxs n ++ allCtxs t).Perm
              (nodeCtxs n ++ (ctx :: allCtxs rest)) :=
            hperm.append_left (nodeCtxs n)
          exact this.trans List.perm_middle
        · intro m hm
          rcases List.mem_cons.mp hm with rfl | hm2
          · exact Or.inr (List.mem_cons_self _ _)
          · rcases hmem m hm2 with hk | hm3
            · exact Or.inl hk
            · exact Or.inr (List.mem_cons_of_mem _ hm3)

/-- A fresh-id `storeSURBCtx` on a well-formed state succeeds, preserves
well-formedness, and adds exactly the new context to both structures. -/
theorem storeSURBCtx_spec (s : DecoyState) (ctx : SurbCtx) (hwf : WF s)
    (hfresh : ¬ ctx.id ∈ storeIds s) :
    ∃ s2, storeSURBCtx s ctx = .ok s2 ∧ WF s2 ∧ ctx ∈ treeCtxs s2 ∧
      (∀ i, i ∈ storeIds s2 ↔ (i = ctx.id ∨ i ∈ storeIds s)) ∧
      (treeCtxs s2).Perm (ctx :: treeCtxs s) := by
  obtain ⟨hp, hs, hnodupT, hnodupS, hst, hts⟩ := hwf
  obtain ⟨t, nid, isNew, heq, hprop, hpair, hperm, _⟩ :=
    treeStore_spec ctx s.nextNid s.surbETAs hp hs
  have hfreshT : ¬ ctx.id ∈ treeIds s := fun h => hfresh (hts _ h)
  have hidsPerm : ((allCtxs t).map (fun c => c.id)).Perm
      (ctx.id :: treeIds s) := hperm.map _
  have hmemPerm : ∀ i, i ∈ (allCtxs t).map (fun c => c.id) ↔
      (i = ctx.id ∨ i ∈ treeIds s) := by
    intro i
    rw [hidsPerm.mem_iff]
    simp [List.mem_cons]
  refine ⟨⟨t, storeInsert s.surbStore ctx.id ⟨ctx, some nid⟩,
          if isNew then s.nextNid + 1 else s.nextNid⟩, ?_, ?_, ?_, ?_, ?_⟩
  · unfold storeSURBCtx
    rw [heq]
  · refine ⟨hprop, hpair, ?_, ?_, ?_, ?_⟩
    · show ((allCtxs t).map (fun c => c.id)).Nodup
      rw [hidsPerm.nodup_iff]
      exact List.nodup_cons.mpr ⟨hfreshT, hnodupT⟩
    · show ((storeInsert s.surbStore ctx.id ⟨ctx, some nid⟩).map
        Prod.fst).Nodup
      rw [storeInsert_fresh _ hfresh, List.map_append]
      rw [List.nodup_append]
      refine ⟨hnodupS, List.nodup_singleton _, ?_⟩
      intro a ha hb
      rcases List.mem_singleton.mp hb with rfl
      exact hfresh ha
    · intro i hi
      have := mem_map_storeInsert.mp hi
      show i ∈ (allCtxs t).map (fun c => c.id)
      rw [hmemPerm]
      rcases this with rfl | hm
      · exact Or.inl rfl
      · exact Or.inr (hst i hm)
    · intro i hi
      have := (hmemPerm i).mp hi
      show i ∈ (storeInsert s.surbStore ctx.id ⟨ctx, some nid⟩).map Prod.fst
      rw [mem_map_storeInsert]
      rcases this with rfl | hm
      · exact Or.inl rfl
      · exact Or.inr (hts i hm)
  · exact hperm.mem_iff.mpr (List.mem_cons_self _ _)
  · intro i
    exact mem_map_storeInsert
  · exact hperm

/-- Characterization of the retry loop: a run either ends with no events
and an unchanged state, or some attempt built and stored a context, after
which either nothing or exactly one packet with the built payload was
dispatched. -/
theorem runA_spec (tp : Int) (ufpl idSuffix : Nat) (o : Nat → Attempt)
    (s : DecoyState) :
    ∀ (fuel i : Nat) (s2 : DecoyState) (evs : List Ev),
      runA tp ufpl idSuffix o s i fuel = .ok (s2, evs) →
      (evs = [] ∧ s2 = s) ∨
      ∃ j, storeSURBCtx s (mkLoopCtx (o j) idSuffix) = .ok s2 ∧
        (evs = [Ev.stored (mkLoopCtx (o j) idSuffix)] ∨
         evs = [Ev.stored (mkLoopCtx (o j) idSuffix),
                Ev.dispatched (buildLoopPayload (surbBytes (o j)) ufpl)]) := by
  intro fuel
  induction fuel with
  | zero =>
    intro i s2 evs h
    simp only [runA] at h
    have h2 := Except.ok.inj h
    exact Or.inl ⟨(congrArg Prod.snd h2).symm, (congrArg Prod.fst h2).symm⟩
  | succ fuel ih =>
    intro i s2 evs h
    simp only [runA] at h
    by_cases hf : (o i).fwdOk = false
    · rw [if_pos hf] at h
      have h2 := Except.ok.inj h
      exact Or.inl ⟨(congrArg Prod.snd h2).symm, (congrArg Prod.fst h2).symm⟩
    · rw [if_neg hf] at h
      by_cases hr : (o i).revOk = false
      · rw [if_pos hr] at h
        have h2 := Except.ok.inj h
        exact Or.inl ⟨(congrArg Prod.snd h2).symm, (congrArg Prod.fst h2).symm⟩
      · rw [if_neg hr] at h
        by_cases hdt : (o i).thenMinusNow < tp * 2
        · rw [if_pos hdt] at h
          cases hst : storeSURBCtx s (mkLoopCtx (o i) idSuffix) with
          | error e =>
            simp only [hst] at h
            cases h
          | ok s1 =>
            simp only [hst] at h
            by_cases hp : (o i).pktOk = false
            · rw [if_pos hp] at h
              have h2 := Except.ok.inj h
              refine Or.inr ⟨i, ?_, Or.inl (congrArg Prod.snd h2).symm⟩
              rw [hst]
              exact congrArg Except.ok (congrArg Prod.fst h2)
            · rw [if_neg hp] at h
              by_cases ha : (o i).allocOk = false
              · rw [if_pos ha] at h
                have h2 := Except.ok.inj h
                refine Or.inr ⟨i, ?_, Or.inl (congrArg Prod.snd h2).symm⟩
                rw [hst]
                exact congrArg Except.ok (congrArg Prod.fst h2)
              · rw [if_neg ha] at h
                have h2 := Except.ok.inj h
                refine Or.inr ⟨i, ?_, Or.inr (congrArg Prod.snd h2).symm⟩
                rw [hst]
                exact congrArg Except.ok (congrArg Prod.fst h2)
        · rw [if_neg hdt] at h
          exact ih (i + 1) s2 evs h

/-- Skipping a block of retried attempts advances the loop index. -/
theorem runA_skip (tp : Int) (ufpl idSuffix : Nat) (o : Nat → Attempt)
    (s : DecoyState) :
    ∀ (k i fuel : Nat), (∀ m, m < k → retryA tp (o (i + m))) →
      runA tp ufpl idSuffix o s i (k + fuel) =
        runA tp ufpl idSuffix o s (i + k) fuel := by
  intro k
  induction k with
  | zero =>
    intro i fuel _
    rw [Nat.zero_add, Nat.add_zero]
  | succ k ih =>
    intro i fuel hret
    obtain ⟨hf, hr, hdt⟩ := hret 0 (Nat.succ_pos k)
    rw [show k + 1 + fuel = (k + fuel) + 1 from by omega]
    simp only [runA]
    rw [if_neg (by rw [Nat.add_zero] at hf; simp [hf]),
        if_neg (by rw [Nat.add_zero] at hr; simp [hr]),
        if_neg (by rw [Nat.add_zero] at hdt; exact hdt)]
    have hstep := ih (i + 1) fuel (fun m hm => by
      have h2 := hret (m + 1) (by omega)
      rw [show i + (m + 1) = i + 1 + m from by omega] at h2
      exact h2)
    rw [hstep, show i + 1 + k = i + (k + 1) from by omega]

/-- Claim C9: whenever `sendLoopPacket` dispatches a packet, the event
trace is exactly a store of the token context followed by the dispatch,
and the stored context's id is present in the token store of the final
state — the state at the moment of dispatch, since dispatching does not
touch the lifecycle state. -/
theorem claim_C9_store_before_dispatch (tp : Int) (ufpl idSuffix : Nat)
    (o : Nat → Attempt) (s s2 : DecoyState) (evs : List Ev) (p : List Nat)
    (hrun : sendLoopPacket tp ufpl idSuffix s o = .ok (s2, evs))
    (hd : Ev.dispatched p ∈ evs) :
    ∃ ctx, evs = [Ev.stored ctx, Ev.dispatched p] ∧ ctx.id ∈ storeIds s2 := by
  rcases runA_spec tp ufpl idSuffix o s maxAttempts 0 s2 evs hrun with
    ⟨rfl, _⟩ | ⟨j, hst, hevs | hevs⟩
  · cases hd
  · rw [hevs] at hd
    have h2 := List.mem_singleton.mp hd
    cases h2
  · rw [hevs] at hd
    rcases List.mem_cons.mp hd with h | h
    · cases h
    · have h2 := List.mem_singleton.mp h
      cases h2
      exact ⟨mkLoopCtx (o j) idSuffix, hevs, storeSURBCtx_mem hst⟩

/-- Claim C9 witness: the concrete all-success cycle stores the context
before dispatching, and the id is in the store at dispatch time. -/
theorem claim_C9_store_before_dispatch_witness :
    ∃ ctx,
      [Ev.stored (⟨7, 105, [9]⟩ : SurbCtx),
       Ev.dispatched [1, 0, 7, 0, 0, 0]] =
        [Ev.stored ctx, Ev.dispatched [1, 0, 7, 0, 0, 0]] ∧
      ctx.id ∈ storeIds sAllOk :=
  claim_C9_store_before_dispatch 10 3 7 oracleAllOk emptyDecoyState sAllOk
    [Ev.stored ⟨7, 105, [9]⟩, Ev.dispatched [1, 0, 7, 0, 0, 0]]
    [1, 0, 7, 0, 0, 0] (by decide) (by decide)

/-- Claim C5 as amended: every payload `sendLoopPacket` dispatches has two
leading bytes — the has-reply flag 1 followed by a reserved zero byte —
then the attempt's SURB bytes, then exactly the fixed user-forward-payload
length of zero bytes. -/
theorem claim_C5_payload_format (tp : Int) (ufpl idSuffix : Nat)
    (o : Nat → Attempt) (s s2 : DecoyState) (evs : List Ev) (p : List Nat)
    (hrun : sendLoopPacket tp ufpl idSuffix s o = .ok (s2, evs))
    (hd : Ev.dispatched p ∈ evs) :
    ∃ j, p = 1 :: 0 :: (surbBytes (o j) ++ List.replicate ufpl 0) ∧
      p.length = 2 + (surbBytes (o j)).length + ufpl := by
  rcases runA_spec tp ufpl idSuffix o s maxAttempts 0 s2 evs hrun with
    ⟨rfl, _⟩ | ⟨j, _, hevs | hevs⟩
  · cases hd
  · rw [hevs] at hd
    have h2 := List.mem_singleton.mp hd
    cases h2
  · rw [hevs] at hd
    rcases List.mem_cons.mp hd with h | h
    · cases h
    · have h2 := List.mem_singleton.mp h
      cases h2
      refine ⟨j, rfl, ?_⟩
      simp [buildLoopPayload]
      omega

/-- Claim C5 amended-format witness at the concrete all-success cycle. -/
theorem claim_C5_payload_format_witness :
    ∃ j, ([1, 0, 7, 0, 0, 0] : List Nat) =
        1 :: 0 :: (surbBytes (oracleAllOk j) ++ List.replicate 3 0) ∧
      ([1, 0, 7, 0, 0, 0] : List Nat).length =
        2 + (surbBytes (oracleAllOk j)).length + 3 :=
  claim_C5_payload_format 10 3 7 oracleAllOk emptyDecoyState sAllOk
    [Ev.stored ⟨7, 105, [9]⟩, Ev.dispatched [1, 0, 7, 0, 0, 0]]
    [1, 0, 7, 0, 0, 0] (by decide) (by decide)

/-- Claim C10: when the attempts before `j` retry on the timing budget and
attempt `j` selects both paths, passes the budget, but fails Sphinx packet
construction, the cycle ends having stored the token context and dispatched
nothing; the context then survives every sweep whose horizon does not
cover its eta and is reported by every sweep whose horizon does. -/
theorem claim_C10_pkt_failure_keeps_token (tp : Int) (ufpl idSuffix : Nat)
    (o : Nat → Attempt) (s : DecoyState) (j : Nat)
    (hwf : WF s) (hfresh : ¬ idSuffix ∈ storeIds s) (hj : j < maxAttempts)
    (hpre : ∀ m, m < j → retryA tp (o m))
    (hfwd : (o j).fwdOk = true) (hrev : (o j).revOk = true)
    (hdt : (o j).thenMinusNow < tp * 2) (hpkt : (o j).pktOk = false) :
    ∃ s2, sendLoopPacket tp ufpl idSuffix s o =
        .ok (s2, [Ev.stored (mkLoopCtx (o j) idSuffix)]) ∧
      idSuffix ∈ storeIds s2 ∧ mkLoopCtx (o j) idSuffix ∈ treeCtxs s2 ∧
      (∀ now slack, ∃ ids s3,
        sweepSURBCtxs s2 now slack = .ok (ids, s3) ∧
        (now < (mkLoopCtx (o j) idSuffix).eta + slack →
          ¬ idSuffix ∈ ids ∧ idSuffix ∈ storeIds s3) ∧
        ((mkLoopCtx (o j) idSuffix).eta + slack ≤ now → idSuffix ∈ ids)) := by
  obtain ⟨s2, hsteq, hwf2, hmemT, hmemS, _⟩ :=
    storeSURBCtx_spec s (mkLoopCtx (o j) idSuffix) hwf hfresh
  refine ⟨s2, ?_, (hmemS idSuffix).mpr (Or.inl rfl), hmemT, ?_⟩
  · unfold sendLoopPacket
    have hskip := runA_skip tp ufpl idSuffix o s j 0 (maxAttempts - j)
      (fun m hm => by rw [Nat.zero_add]; exact hpre m hm)
    rw [show maxAttempts = j + (maxAttempts - j) from by omega, hskip,
        Nat.zero_add,
        show maxAttempts - j = (maxAttempts - j - 1) + 1 from by omega]
    simp only [runA]
    rw [if_neg (by simp [hfwd]), if_neg (by simp [hrev]), if_pos hdt]
    simp only [hsteq]
    rw [if_pos hpkt]
  · intro now slack
    obtain ⟨hp2, hs2p, hnodup2, _, _, _⟩ := hwf2
    have hnotin : (mkLoopCtx (o j) idSuffix).eta + slack > now →
        ¬ idSuffix ∈
          ((treeCtxs s2).filter (dueCtx now slack)).map (fun c => c.id) := by
      intro hlt hmem
      obtain ⟨c2, hc2, hid⟩ := List.mem_map.mp hmem
      have hc2f := List.mem_filter.mp hc2
      have hceq : c2 = mkLoopCtx (o j) idSuffix :=
        List.inj_on_of_nodup_map hnodup2 hc2f.1 hmemT hid
      have hdue := hc2f.2
      rw [hceq] at hdue
      unfold dueCtx at hdue
      have := of_decide_eq_true hdue
      omega
    refine ⟨_, _, sweep_spec s2 now slack hp2 hs2p, ?_, ?_⟩
    · intro hlt
      refine ⟨hnotin (by omega), ?_⟩
      show idSuffix ∈ (deleteIds _ _).map Prod.fst
      rw [mem_map_deleteIds]
      exact ⟨(hmemS idSuffix).mpr (Or.inl rfl), hnotin (by omega)⟩
    · intro hle
      refine List.mem_map.mpr
        ⟨mkLoopCtx (o j) idSuffix, List.mem_filter.mpr ⟨hmemT, ?_⟩, rfl⟩
      unfold dueCtx
      exact decide_eq_true hle

/-- Claim C10 witness: with packet construction failing, the cycle stores
the context, dispatches nothing, and a sweep at 50 (before eta 105) keeps
the token. -/
theorem claim_C10_pkt_failure_keeps_token_witness :
    ∃ s2, sendLoopPacket 10 3 7 emptyDecoyState oraclePktFails =
        .ok (s2, [Ev.stored (⟨7, 105, [9]⟩ : SurbCtx)]) ∧
      7 ∈ storeIds s2 ∧
      ∃ ids s3, sweepSURBCtxs s2 50 0 = .ok (ids, s3) ∧
        ¬ 7 ∈ ids ∧ 7 ∈ storeIds s3 := by
  obtain ⟨s2, h1, h2, _, h4⟩ :=
    claim_C10_pkt_failure_keeps_token 10 3 7 oraclePktFails emptyDecoyState 0
      (by decide) (by decide) (by decide)
      (fun m hm => absurd hm (Nat.not_lt_zero m))
      (by decide) (by decide) (by decide) (by decide)
  obtain ⟨ids, s3, h5, h6, _⟩ := h4 50 0
  have h7 := h6 (by decide)
  exact ⟨s2, h1, h2, ids, s3, h5, h7.1, h7.2⟩

/-- Claim C5 counterexample: the payload a successful loop cycle dispatches
is `[1, 0] ++ surb ++ zeros` — byte 1 is a reserved zero and the SURB
starts at offset 2 — which differs from the claimed format in which the
SURB immediately follows the single flag byte. -/
theorem claim_C5_counterexample :
    ((sendLoopPacket 10 3 7 emptyDecoyState oracleAllOk).map Prod.snd) =
      .ok [Ev.stored ⟨7, 105, [9]⟩, Ev.dispatched [1, 0, 7, 0, 0, 0]] ∧
    [1, 0, 7, 0, 0, 0] ≠ specLoopPayloadClaim [7] 3 ∧
    List.get? [1, 0, 7, 0, 0, 0] 1 = some 0 ∧
    List.get? (specLoopPayloadClaim [7] 3) 1 = some 7 := by decide

end MesonDecoy
